import Mathlib

/-!
Verification of the AIWC workload-characterisation plugin
(`src/plugins/WorkloadCharacterisation.cpp`).

Hash maps from the source (`std::unordered_map<size_t, uint32_t>` etc.) are
embedded as association lists with distinct keys; machine integers become
`Nat` (with explicit `% 65536` where the source truncates to `uint16_t`);
`double` becomes `ℝ`; code whose C++ semantics is undefined on some input
(dereferencing `std::min_element` of an empty range, out-of-range
`operator[]`) is embedded as an `Option`-valued function returning `none`
exactly at the undefined access.
-/

set_option maxRecDepth 100000

namespace AIWC

/-- An address histogram: association list mapping address to count.
Embeds `std::unordered_map<size_t, uint32_t>`; keys are distinct. -/
abbrev Hist := List (Nat × Nat)

/-- Sum of all counts of a histogram. -/
def totalCount (h : Hist) : Nat := (h.map Prod.snd).sum

/-- `addCount h a c` embeds `h[a] += c` on an association-list map. -/
def addCount : Hist → Nat → Nat → Hist
  | [], a, c => [(a, c)]
  | (k, v) :: t, a, c => if k = a then (k, v + c) :: t else (k, v) :: addCount t a c

/-- Bucket a histogram by `address >> skip`, summing counts: the
`local_address_count[nskip][m.first >> nskip] += m.second` accumulation of
`entropy` (WorkloadCharacterisation.cpp:308-314) and of `logMetrics`
(WorkloadCharacterisation.cpp:437-451). -/
def bucket (skip : Nat) (h : Hist) : Hist :=
  h.foldl (fun acc kv => addCount acc (kv.1 >>> skip) kv.2) []

/-- The per-skip entropy sum of the sparse-histogram `entropy` routine
(WorkloadCharacterisation.cpp:321-328): `-Σ p·log2(p)` with
`p = count / (total + 1)`. -/
noncomputable def entropyAt (total : Nat) (h : Hist) : ℝ :=
  -((h.map (fun kv =>
      ((kv.2 : ℝ) / ((total : ℝ) + 1)) * Real.logb 2 ((kv.2 : ℝ) / ((total : ℝ) + 1)))).sum)

/-- The sparse-histogram entropy routine `entropy`
(WorkloadCharacterisation.cpp:302-331): skip 0 uses the raw histogram,
skips 1..10 use the histogram bucketed by `address >> skip`; when the
total count is 0 it returns 11 zeros. -/
noncomputable def entropy (h : Hist) : List ℝ :=
  if totalCount h = 0 then List.replicate 11 0
  else entropyAt (totalCount h) h ::
       (List.range 10).map (fun k => entropyAt (totalCount h) (bucket (k + 1) h))

lemma totalCount_nil : totalCount [] = 0 := rfl

lemma totalCount_cons (kv : Nat × Nat) (t : Hist) :
    totalCount (kv :: t) = kv.2 + totalCount t := by
  simp [totalCount]

lemma totalCount_addCount (h : Hist) (a c : Nat) :
    totalCount (addCount h a c) = totalCount h + c := by
  induction h with
  | nil => simp [addCount, totalCount]
  | cons kv t ih =>
    obtain ⟨k, v⟩ := kv
    by_cases hk : k = a
    · simp [addCount, hk, totalCount_cons]
      omega
    · simp [addCount, hk, totalCount_cons, ih]
      omega

lemma totalCount_foldl_bucket (s : Nat) (h : Hist) :
    ∀ acc : Hist,
      totalCount (h.foldl (fun acc kv => addCount acc (kv.1 >>> s) kv.2) acc) =
        totalCount acc + totalCount h := by
  induction h with
  | nil => intro acc; simp [totalCount]
  | cons kv t ih =>
    intro acc
    simp only [List.foldl_cons]
    rw [ih, totalCount_addCount, totalCount_cons]
    omega

/-- Bucketing preserves the total count. -/
lemma totalCount_bucket (s : Nat) (h : Hist) : totalCount (bucket s h) = totalCount h := by
  unfold bucket
  rw [totalCount_foldl_bucket]
  simp [totalCount]

lemma mem_addCount_pos (h : Hist) (a c : Nat) (hp : ∀ kv ∈ h, 0 < kv.2) (hc : 0 < c) :
    ∀ kv ∈ addCount h a c, 0 < kv.2 := by
  induction h with
  | nil =>
    intro kv hkv
    simp [addCount] at hkv
    simp [hkv, hc]
  | cons x t ih =>
    obtain ⟨k, v⟩ := x
    intro kv hkv
    by_cases hk : k = a
    · simp [addCount, hk] at hkv
      rcases hkv with hkv | hkv
      · have := hp (k, v) (by simp)
        simp [hkv]
        omega
      · exact hp kv (by simp [hkv])
    · simp [addCount, hk] at hkv
      rcases hkv with hkv | hkv
      · have := hp (k, v) (by simp)
        simpa [hkv]
      · exact ih (fun kv hkv => hp kv (by simp [hkv])) kv hkv

lemma bucket_foldl_pos (s : Nat) (h : Hist) :
    ∀ acc : Hist, (∀ kv ∈ acc, 0 < kv.2) → (∀ kv ∈ h, 0 < kv.2) →
      ∀ kv ∈ h.foldl (fun acc kv => addCount acc (kv.1 >>> s) kv.2) acc, 0 < kv.2 := by
  induction h with
  | nil => intro acc hacc _ kv hkv; exact hacc kv hkv
  | cons x t ih =>
    intro acc hacc hh kv hkv
    simp only [List.foldl_cons] at hkv
    exact ih (addCount acc (x.1 >>> s) x.2)
      (mem_addCount_pos acc _ _ hacc (hh x (by simp)))
      (fun kv hkv => hh kv (by simp [hkv])) kv hkv

/-- Counts stay positive under bucketing. -/
lemma bucket_pos (s : Nat) (h : Hist) (hp : ∀ kv ∈ h, 0 < kv.2) :
    ∀ kv ∈ bucket s h, 0 < kv.2 :=
  bucket_foldl_pos s h [] (by simp) hp

/-- Each individual count is at most the total. -/
lemma count_le_totalCount (h : Hist) : ∀ kv ∈ h, kv.2 ≤ totalCount h := by
  induction h with
  | nil => simp
  | cons x t ih =>
    intro kv hkv
    rcases List.mem_cons.mp hkv with hkv | hkv
    · rw [totalCount_cons, hkv]
      omega
    · have := ih kv hkv
      rw [totalCount_cons]
      omega

lemma list_sum_nonpos {l : List ℝ} (h : ∀ x ∈ l, x ≤ 0) : l.sum ≤ 0 := by
  induction l with
  | nil => simp
  | cons a t ih =>
    have ha := h a (by simp)
    have ht := ih (fun x hx => h x (by simp [hx]))
    simp only [List.sum_cons]
    linarith

lemma neg_list_sum_map {α : Type} (l : List α) (f : α → ℝ) :
    -((l.map f).sum) = (l.map (fun x => -(f x))).sum := by
  induction l with
  | nil => simp
  | cons a t ih => simp only [List.map_cons, List.sum_cons, neg_add, ih]

/-- Each `p·log2 p` term of the smoothed entropy is nonpositive, so the
negated sum is nonnegative. -/
lemma entropyAt_nonneg (T : Nat) (h : Hist) (hc : ∀ kv ∈ h, kv.2 ≤ T) :
    0 ≤ entropyAt T h := by
  unfold entropyAt
  rw [neg_nonneg]
  apply list_sum_nonpos
  intro x hx
  simp only [List.mem_map] at hx
  obtain ⟨kv, hkv, rfl⟩ := hx
  have hT1 : (0 : ℝ) < (T : ℝ) + 1 := by positivity
  have hp0 : (0 : ℝ) ≤ (kv.2 : ℝ) / ((T : ℝ) + 1) := by positivity
  have hp1 : (kv.2 : ℝ) / ((T : ℝ) + 1) ≤ 1 := by
    rw [div_le_one hT1]
    have := hc kv hkv
    have : (kv.2 : ℝ) ≤ (T : ℝ) := by exact_mod_cast this
    linarith
  have hlog : Real.logb 2 ((kv.2 : ℝ) / ((T : ℝ) + 1)) ≤ 0 :=
    Real.logb_nonpos (by norm_num) hp0 hp1
  exact mul_nonpos_iff.mpr (Or.inl ⟨hp0, hlog⟩)

/-- The smoothed entropy is at most `log2(total+1)`: each summand
`-p·log2 p` with `p = c/(T+1)` and `c ≥ 1` is at most `c·log2(T+1)/(T+1)`,
and the counts sum to `T`. -/
lemma entropyAt_le (T : Nat) (h : Hist) (hT : 1 ≤ T)
    (hc : ∀ kv ∈ h, 1 ≤ kv.2) (hsum : totalCount h = T) :
    entropyAt T h ≤ Real.logb 2 ((T : ℝ) + 1) := by
  have hT1 : (0 : ℝ) < (T : ℝ) + 1 := by positivity
  set L : ℝ := Real.logb 2 ((T : ℝ) + 1) with hL
  have hLpos : 0 ≤ L := by
    apply Real.logb_nonneg (by norm_num)
    have : (1 : ℝ) ≤ (T : ℝ) := by exact_mod_cast hT
    linarith
  unfold entropyAt
  rw [neg_list_sum_map]
  have step : ∀ kv ∈ h,
      -(((kv.2 : ℝ) / ((T : ℝ) + 1)) * Real.logb 2 ((kv.2 : ℝ) / ((T : ℝ) + 1))) ≤
        (kv.2 : ℝ) * (L / ((T : ℝ) + 1)) := by
    intro kv hkv
    have hc1 : (1 : ℝ) ≤ (kv.2 : ℝ) := by exact_mod_cast hc kv hkv
    have hcne : (kv.2 : ℝ) ≠ 0 := by linarith
    have hlogc : 0 ≤ Real.logb 2 (kv.2 : ℝ) := Real.logb_nonneg (by norm_num) hc1
    rw [Real.logb_div hcne (by linarith)]
    have hp0 : (0 : ℝ) ≤ (kv.2 : ℝ) / ((T : ℝ) + 1) := by positivity
    have expand : -(((kv.2 : ℝ) / ((T : ℝ) + 1)) * (Real.logb 2 (kv.2 : ℝ) - L)) =
        ((kv.2 : ℝ) / ((T : ℝ) + 1)) * (L - Real.logb 2 (kv.2 : ℝ)) := by ring
    rw [expand]
    have hle : ((kv.2 : ℝ) / ((T : ℝ) + 1)) * (L - Real.logb 2 (kv.2 : ℝ)) ≤
        ((kv.2 : ℝ) / ((T : ℝ) + 1)) * L :=
      mul_le_mul_of_nonneg_left (by linarith) hp0
    calc ((kv.2 : ℝ) / ((T : ℝ) + 1)) * (L - Real.logb 2 (kv.2 : ℝ))
        ≤ ((kv.2 : ℝ) / ((T : ℝ) + 1)) * L := hle
      _ = (kv.2 : ℝ) * (L / ((T : ℝ) + 1)) := by ring
  calc (h.map (fun kv =>
          -(((kv.2 : ℝ) / ((T : ℝ) + 1)) * Real.logb 2 ((kv.2 : ℝ) / ((T : ℝ) + 1))))).sum
      ≤ (h.map (fun kv => (kv.2 : ℝ) * (L / ((T : ℝ) + 1)))).sum :=
        List.sum_le_sum step
    _ = (h.map (fun kv => (kv.2 : ℝ))).sum * (L / ((T : ℝ) + 1)) :=
        List.sum_map_mul_right h (fun kv => (kv.2 : ℝ)) _
    _ = ((totalCount h : ℕ) : ℝ) * (L / ((T : ℝ) + 1)) := by
        rw [totalCount, Nat.cast_list_sum, List.map_map]
        rfl
    _ = (T : ℝ) * (L / ((T : ℝ) + 1)) := by rw [hsum]
    _ = L * ((T : ℝ) / ((T : ℝ) + 1)) := by ring
    _ ≤ L * 1 := by
        apply mul_le_mul_of_nonneg_left _ hLpos
        rw [div_le_one hT1]
        linarith
    _ = L := by ring

lemma entropyAt_bounds (T : Nat) (g : Hist) (hT : 1 ≤ T)
    (hpos : ∀ kv ∈ g, 0 < kv.2) (hsum : totalCount g = T) :
    0 ≤ entropyAt T g ∧ entropyAt T g ≤ Real.logb 2 ((T : ℝ) + 1) := by
  constructor
  · exact entropyAt_nonneg T g (fun kv hkv => hsum ▸ count_le_totalCount g kv hkv)
  · exact entropyAt_le T g hT (fun kv hkv => hpos kv hkv) hsum

lemma addCount_of_not_mem (h : Hist) (a c : Nat) (ha : a ∉ h.map Prod.fst) :
    addCount h a c = h ++ [(a, c)] := by
  induction h with
  | nil => simp [addCount]
  | cons x t ih =>
    obtain ⟨k, v⟩ := x
    simp only [List.map_cons, List.mem_cons] at ha
    push_neg at ha
    have hk : k ≠ a := fun hk => ha.1 hk.symm
    simp [addCount, hk, ih ha.2]

lemma bucket_zero_foldl (h : Hist) :
    ∀ acc : Hist, (acc.map Prod.fst ++ h.map Prod.fst).Nodup →
      h.foldl (fun acc kv => addCount acc (kv.1 >>> 0) kv.2) acc = acc ++ h := by
  induction h with
  | nil => intro acc _; simp
  | cons x t ih =>
    intro acc hnd
    obtain ⟨k, v⟩ := x
    have hk : k ∉ acc.map Prod.fst := by
      intro hmem
      have hdisj := (List.nodup_append.mp hnd).2.2
      exact hdisj hmem (by simp)
    have hnd2 : ((acc ++ [(k, v)]).map Prod.fst ++ t.map Prod.fst).Nodup := by
      simp only [List.map_append, List.map_cons] at hnd ⊢
      simpa [List.append_assoc] using hnd
    show List.foldl (fun acc kv => addCount acc (kv.1 >>> 0) kv.2)
        (addCount acc (k >>> 0) v) t = acc ++ (k, v) :: t
    rw [Nat.shiftRight_zero, addCount_of_not_mem acc k v hk, ih (acc ++ [(k, v)]) hnd2]
    simp

/-- With distinct keys, bucketing by a shift of 0 returns the histogram
itself (so the source's `local_address_count[0] = histogram` shortcut
agrees with the uniform `address >> skip` description). -/
lemma bucket_zero (h : Hist) (hnd : (h.map Prod.fst).Nodup) : bucket 0 h = h := by
  unfold bucket
  rw [bucket_zero_foldl h [] (by simpa)]
  simp

/-- C1: for every address histogram with distinct keys and positive counts,
the sparse-histogram entropy routine returns 11 values; when the total is 0
it returns 11 zeros; otherwise entry `skip` is the smoothed entropy
`-Σ p·log2 p` (`p = count/(total+1)`) of the histogram bucketed by
`address >> skip`; and every entry lies in `[0, log2(total+1)]`. -/
theorem entropy_range_spec (h : Hist) (hpos : ∀ kv ∈ h, 0 < kv.2)
    (hnd : (h.map Prod.fst).Nodup) :
    (entropy h).length = 11 ∧
    (totalCount h = 0 → entropy h = List.replicate 11 0) ∧
    (totalCount h ≠ 0 →
      entropy h = (List.range 11).map (fun k => entropyAt (totalCount h) (bucket k h))) ∧
    (∀ e ∈ entropy h, 0 ≤ e ∧ e ≤ Real.logb 2 ((totalCount h : ℝ) + 1)) := by
  refine ⟨?_, ?_, ?_, ?_⟩
  · unfold entropy
    split <;> simp
  · intro h0
    unfold entropy
    simp [h0]
  · intro h0
    unfold entropy
    rw [if_neg h0]
    conv_rhs => rw [List.range_succ_eq_map]
    simp only [List.map_cons, List.map_map]
    rw [bucket_zero h hnd]
    rfl
  · intro e he
    by_cases h0 : totalCount h = 0
    · unfold entropy at he
      rw [if_pos h0] at he
      have he0 : e = 0 := by
        have := List.eq_of_mem_replicate he
        exact this
      rw [he0, h0]
      norm_num
    · have hT : 1 ≤ totalCount h := Nat.one_le_iff_ne_zero.mpr h0
      unfold entropy at he
      rw [if_neg h0] at he
      rcases List.mem_cons.mp he with he | he
      · rw [he]
        exact entropyAt_bounds (totalCount h) h hT hpos rfl
      · simp only [List.mem_map, List.mem_range] at he
        obtain ⟨k, _, rfl⟩ := he
        exact entropyAt_bounds (totalCount h) (bucket (k + 1) h) hT
          (bucket_pos (k + 1) h hpos) (totalCount_bucket (k + 1) h)

/-- Witness for C1 at the concrete histogram `[(4096, 2), (4100, 1)]`. -/
theorem entropy_range_spec_witness :
    (entropy [(4096, 2), (4100, 1)]).length = 11 ∧
    (totalCount [(4096, 2), (4100, 1)] = 0 →
      entropy [(4096, 2), (4100, 1)] = List.replicate 11 0) ∧
    (totalCount [(4096, 2), (4100, 1)] ≠ 0 →
      entropy [(4096, 2), (4100, 1)] =
        (List.range 11).map
          (fun k => entropyAt (totalCount [(4096, 2), (4100, 1)])
            (bucket k [(4096, 2), (4100, 1)]))) ∧
    (∀ e ∈ entropy [(4096, 2), (4100, 1)],
      0 ≤ e ∧ e ≤ Real.logb 2 ((totalCount [(4096, 2), (4100, 1)] : ℝ) + 1)) :=
  entropy_range_spec [(4096, 2), (4100, 1)] (by decide) (by decide)

/-- The combined load+store address histogram of `logMetrics` bucketed by
`address >> skip` (WorkloadCharacterisation.cpp:437-451): the store map is
accumulated first, then the load map, into `local_address_count[nskip]`. -/
def localAddressCount (storeOps loadOps : Hist) (skip : Nat) : Hist :=
  bucket skip (storeOps ++ loadOps)

/-- `memory_access_count` of `logMetrics`
(WorkloadCharacterisation.cpp:458-461): the sum of all counts of the skip-0
combined histogram. -/
def memoryAccessCount (storeOps loadOps : Hist) : Nat :=
  totalCount (localAddressCount storeOps loadOps 0)

/-- The per-skip LMAE sum of `logMetrics`
(WorkloadCharacterisation.cpp:478-486): `-Σ p·log2 p` with
`p = count / memory_access_count` (no `+1` smoothing on this path). -/
noncomputable def lmaeAt (total : Nat) (h : Hist) : ℝ :=
  -((h.map (fun kv =>
      ((kv.2 : ℝ) / (total : ℝ)) * Real.logb 2 ((kv.2 : ℝ) / (total : ℝ)))).sum)

/-- The load histogram of the sequential-load scenario: 1024 loads to
distinct consecutive 4-byte addresses starting at 0x1000, each counted
once. -/
def seqLoads : Hist := (List.range 1024).map (fun i => (4096 + 4 * i, 1))

lemma seqLoads_total : memoryAccessCount [] seqLoads = 1024 := by
  unfold memoryAccessCount localAddressCount
  rw [totalCount_bucket]
  decide

lemma seqLoads_bucket10 :
    localAddressCount [] seqLoads 10 = [(4, 256), (5, 256), (6, 256), (7, 256)] := by
  decide

lemma logb_two_four : Real.logb 2 (4 : ℝ) = 2 := by
  rw [show (4 : ℝ) = 2 ^ (2 : ℕ) by norm_num, Real.logb_pow]
  rw [Real.logb_self_eq_one (by norm_num)]
  norm_num

lemma lmaeAt_seq_value :
    lmaeAt 1024 [(4, 256), (5, 256), (6, 256), (7, 256)] = 2 := by
  unfold lmaeAt
  have hq : ((256 : ℕ) : ℝ) / ((1024 : ℕ) : ℝ) = (4 : ℝ)⁻¹ := by norm_num
  have hlog : Real.logb 2 ((256 : ℝ) / (1024 : ℝ)) = -2 := by
    rw [show ((256 : ℝ) / (1024 : ℝ)) = (4 : ℝ)⁻¹ by norm_num, Real.logb_inv, logb_two_four]
  simp only [List.map_cons, List.map_nil, List.sum_cons, List.sum_nil]
  push_cast
  rw [hlog]
  norm_num

lemma lmae_skip10_seq :
    lmaeAt (memoryAccessCount [] seqLoads) (localAddressCount [] seqLoads 10) = 2 := by
  rw [seqLoads_total, seqLoads_bucket10]
  exact lmaeAt_seq_value

/-- C3 counterexample: for the sequential-load scenario the skip-10 LMAE
entry reported by `logMetrics` is not 0 — the 4096 addressed bytes span
four `address >> 10` buckets, not one. -/
theorem lmae_skip10_seq_counterexample :
    lmaeAt (memoryAccessCount [] seqLoads) (localAddressCount [] seqLoads 10) ≠ 0 := by
  rw [lmae_skip10_seq]
  norm_num

/-- C3 (amended): for the sequential-load scenario (one work-item, 1024
loads to distinct consecutive 4-byte addresses from 0x1000) the skip-10
LMAE entry equals 2 = log2 4: the addresses collapse to the four
`address >> 10` buckets 4..7, each with probability 1/4. -/
theorem lmae_skip10_seq_amended :
    lmaeAt (memoryAccessCount [] seqLoads) (localAddressCount [] seqLoads 10) = 2 :=
  lmae_skip10_seq

/-- Value emitted on the report row labelled `unique_reads`
(WorkloadCharacterisation.cpp:631): `m_storeOps.size()`. -/
def unique_reads_value (storeOps : Hist) : Nat := storeOps.length

/-- Value emitted on the report row labelled `unique_writes`
(WorkloadCharacterisation.cpp:632): `m_loadOps.size()`. -/
def unique_writes_value (loadOps : Hist) : Nat := loadOps.length

/-- Value emitted on the report row labelled `unique_read_write_ratio`
(WorkloadCharacterisation.cpp:633-634): `m_loadOps.size() / m_storeOps.size()`. -/
noncomputable def unique_read_write_ratio_value (loadOps storeOps : Hist) : ℝ :=
  (loadOps.length : ℝ) / (storeOps.length : ℝ)

/-- Number of distinct load addresses (spec-side quantity for C4). -/
def distinctLoadAddresses (loadOps : Hist) : Nat := ((loadOps.map Prod.fst).dedup).length

/-- Number of distinct store addresses (spec-side quantity for C4). -/
def distinctStoreAddresses (storeOps : Hist) : Nat := ((storeOps.map Prod.fst).dedup).length

/-- C4: the row labelled `unique_reads` carries the number of distinct
STORE addresses, the row labelled `unique_writes` the number of distinct
LOAD addresses, and `unique_read_write_ratio` is distinct-loads divided by
distinct-stores: the swapped labelling of the source is preserved. -/
theorem unique_rows_swapped_spec (loadOps storeOps : Hist)
    (hl : (loadOps.map Prod.fst).Nodup) (hs : (storeOps.map Prod.fst).Nodup) :
    unique_reads_value storeOps = distinctStoreAddresses storeOps ∧
    unique_writes_value loadOps = distinctLoadAddresses loadOps ∧
    unique_read_write_ratio_value loadOps storeOps =
      (distinctLoadAddresses loadOps : ℝ) / (distinctStoreAddresses storeOps : ℝ) := by
  have hld : (loadOps.map Prod.fst).dedup = loadOps.map Prod.fst := List.Nodup.dedup hl
  have hsd : (storeOps.map Prod.fst).dedup = storeOps.map Prod.fst := List.Nodup.dedup hs
  refine ⟨?_, ?_, ?_⟩
  · unfold unique_reads_value distinctStoreAddresses
    rw [hsd, List.length_map]
  · unfold unique_writes_value distinctLoadAddresses
    rw [hld, List.length_map]
  · unfold unique_read_write_ratio_value distinctLoadAddresses distinctStoreAddresses
    rw [hld, hsd, List.length_map, List.length_map]

/-- Witness for C4 at concrete load/store maps. -/
theorem unique_rows_swapped_witness :
    unique_reads_value [(16, 1)] = distinctStoreAddresses [(16, 1)] ∧
    unique_writes_value [(8, 2), (12, 1)] = distinctLoadAddresses [(8, 2), (12, 1)] ∧
    unique_read_write_ratio_value [(8, 2), (12, 1)] [(16, 1)] =
      (distinctLoadAddresses [(8, 2), (12, 1)] : ℝ) /
        (distinctStoreAddresses [(16, 1)] : ℝ) :=
  unique_rows_swapped_spec [(8, 2), (12, 1)] [(16, 1)] (by decide) (by decide)

/-- One step of the rolling 16-bit branch-history register
(WorkloadCharacterisation.cpp:776): `current_pattern = (current_pattern << 1) | (b ? 1 : 0)`
on a `uint16_t`, so the shifted value is truncated modulo 2^16. -/
def branchPatternStep (cur : Nat) (b : Bool) : Nat :=
  ((cur <<< 1) % 65536) ||| (if b then 1 else 0)

/-- The sequence of patterns recorded into `m_branchPatterns` while walking
one per-group outcome sequence (WorkloadCharacterisation.cpp:771-781):
the register is updated at every index `i`, and recorded once `i ≥ m−1 = 15`. -/
def recordedPatternsGo : List Bool → Nat → Nat → List Nat
  | [], _, _ => []
  | b :: rest, cur, i =>
    let cur2 := branchPatternStep cur b
    if 15 ≤ i then cur2 :: recordedPatternsGo rest cur2 (i + 1)
    else recordedPatternsGo rest cur2 (i + 1)

def recordedPatterns (seq : List Bool) : List Nat := recordedPatternsGo seq 0 0

/-- Total number of pattern occurrences one per-group sequence contributes
to `m_branchPatterns[site]`: the whole walk is skipped when the sequence is
shorter than `m = 16` (WorkloadCharacterisation.cpp:768-769). -/
def sitePatternTotal (seq : List Bool) : Nat :=
  if seq.length < 16 then 0 else (recordedPatterns seq).length

/-- `m_branchCounts[site]` after merging the given per-group sequences
(WorkloadCharacterisation.cpp:764). -/
def branchCountOf (seqs : List (List Bool)) : Nat := (seqs.map List.length).sum

/-- Sum of `m_branchPatterns[site]`'s occurrence counts after merging the
given per-group sequences. -/
def patternTotalOf (seqs : List (List Bool)) : Nat := (seqs.map sitePatternTotal).sum

lemma recordedPatternsGo_length (l : List Bool) :
    ∀ cur i, (recordedPatternsGo l cur i).length = l.length - (15 - i) := by
  induction l with
  | nil => intro cur i; simp [recordedPatternsGo]
  | cons b t ih =>
    intro cur i
    unfold recordedPatternsGo
    by_cases h15 : 15 ≤ i
    · rw [if_pos h15]
      simp only [List.length_cons, ih]
      omega
    · rw [if_neg h15]
      rw [ih]
      simp only [List.length_cons]
      omega

lemma sitePatternTotal_eq (seq : List Bool) :
    sitePatternTotal seq = if seq.length < 16 then 0 else seq.length - 15 := by
  unfold sitePatternTotal recordedPatterns
  rw [recordedPatternsGo_length]

lemma sitePatternTotal_le (seq : List Bool) : sitePatternTotal seq ≤ seq.length := by
  rw [sitePatternTotal_eq]
  split <;> omega

lemma sitePatternTotal_eq_iff (seq : List Bool) :
    seq.length = sitePatternTotal seq ↔ seq.length = 0 := by
  rw [sitePatternTotal_eq]
  split <;> omega

/-- C2 counterexample: a site merged from a single work-group sequence of
16 outcomes has `branch_counts = 16 ≥ 16` yet the pattern occurrences sum
to 1, so equality does not hold exactly when the count reaches the history
window `m = 16`. -/
theorem branch_pattern_count_counterexample :
    ¬ (branchCountOf [List.replicate 16 true] = patternTotalOf [List.replicate 16 true] ↔
        16 ≤ branchCountOf [List.replicate 16 true]) := by
  decide

/-- C2 (amended): for every branch site, `branch_counts[s]` is at least the
sum of `branch_patterns[s]`'s occurrence counts (each group sequence of
length `len ≥ 16` contributes exactly `len − 15`, shorter ones contribute
0), and the two are equal exactly when `branch_counts[s] = 0` — which never
happens for a site actually present, whose sequences are non-empty. -/
theorem branch_pattern_count_amended (seqs : List (List Bool)) :
    patternTotalOf seqs ≤ branchCountOf seqs ∧
    (branchCountOf seqs = patternTotalOf seqs ↔ branchCountOf seqs = 0) := by
  induction seqs with
  | nil => simp [patternTotalOf, branchCountOf]
  | cons s t ih =>
    obtain ⟨ih1, ih2⟩ := ih
    have hle := sitePatternTotal_le s
    have hiff := sitePatternTotal_eq_iff s
    constructor
    · simp only [patternTotalOf, branchCountOf, List.map_cons, List.sum_cons] at *
      omega
    · simp only [patternTotalOf, branchCountOf, List.map_cons, List.sum_cons] at *
      omega

/-- A ledger element (WorkloadCharacterisation.h / .cpp:104-112):
a byte address and a timestep. -/
structure LedgerElem where
  address : Nat
  timestep : Nat
deriving DecidableEq

/-- The per-thread worker state relevant to the ledger: the lazily created
accumulator (`m_state`, WorkloadCharacterisation.cpp:39-40) with the
outer ledger vector. `initialized` models the `!m_state.storeOps`
null-pointer test of `workGroupBegin`. -/
structure WorkerLedgerState where
  initialized : Bool
  ledger : List (List LedgerElem)
deriving DecidableEq

/-- `workGroupBegin` restricted to the ledger
(WorkloadCharacterisation.cpp:693-742): on the thread's first call the
ledger is allocated with `m_local_num.x * m_local_num.y * m_local_num.z`
rows; on every later call the rows are merely cleared, never resized. -/
def workGroupBeginLedger (s : WorkerLedgerState) (localNum : Nat × Nat × Nat) :
    WorkerLedgerState :=
  if s.initialized then
    { s with ledger := s.ledger.map (fun _ => ([] : List LedgerElem)) }
  else
    { initialized := true,
      ledger := List.replicate (localNum.1 * localNum.2.1 * localNum.2.2) [] }

/-- Row index used by `threadMemoryLedger`
(WorkloadCharacterisation.cpp:108-111):
`localID.x * local.y * local.z + localID.y * local.z + localID.z`. -/
def threadMemoryLedgerIndex (localNum lid : Nat × Nat × Nat) : Nat :=
  lid.1 * localNum.2.1 * localNum.2.2 + lid.2.1 * localNum.2.2 + lid.2.2

/-- `threadMemoryLedger` (WorkloadCharacterisation.cpp:104-112): append a
ledger element to the row of the work-item's linearised local id. The
source indexes the outer vector unchecked; an out-of-range index is
undefined behaviour, embedded as `none`. -/
def threadMemoryLedger (ledger : List (List LedgerElem)) (localNum lid : Nat × Nat × Nat)
    (addr ts : Nat) : Option (List (List LedgerElem)) :=
  let idx := threadMemoryLedgerIndex localNum lid
  match ledger[idx]? with
  | some row => some (ledger.set idx (row ++ [⟨addr, ts⟩]))
  | none => none

/-- C5: evaluating the worker-state code on a thread whose first work-group
(local size 1·1·1) is followed by a work-group of a different invocation
with local size 2·1·1: after the second `workGroupBegin` the ledger still
has 1 row while the current local geometry has 2 work-items, and the
memory access of work-item (1,0,0) indexes the outer vector out of range. -/
theorem ledger_stale_after_geometry_change :
    (workGroupBeginLedger (workGroupBeginLedger ⟨false, []⟩ (1, 1, 1)) (2, 1, 1)).ledger.length
      = 1 ∧
    (2 : Nat) * 1 * 1 = 2 ∧
    threadMemoryLedger
      (workGroupBeginLedger (workGroupBeginLedger ⟨false, []⟩ (1, 1, 1)) (2, 1, 1)).ledger
      (2, 1, 1) (1, 0, 0) 4096 0 = none := by
  decide

/-- The destructor's log-file search loop (WorkloadCharacterisation.cpp:65-71):
starting from `count`, it BREAKS as soon as `aiwc_memory_transfers_<count>.csv`
EXISTS (`if (std::ifstream(logfile_name)) break;`) and otherwise keeps
incrementing; `present n` tells whether the file of index `n` exists, and
the fuel bounds the unbounded `while (true)` (the loop never terminates
when no file exists, hence `none`). -/
def destructorLogfileIndex (present : Nat → Bool) : Nat → Nat → Option Nat
  | 0, _ => none
  | fuel + 1, count => if present count then some count
                       else destructorLogfileIndex present fuel (count + 1)

/-- The report-file search loop of `logMetrics`
(WorkloadCharacterisation.cpp:580-588), which implements the documented
rule: BREAK as soon as the file does NOT exist
(`if (!std::ifstream(logfile_name)) break;`). -/
def freshLogfileIndex (present : Nat → Bool) : Nat → Nat → Option Nat
  | 0, _ => none
  | fuel + 1, count => if present count then freshLogfileIndex present fuel (count + 1)
                       else some count

/-- C6: with exactly `aiwc_memory_transfers_0.csv` present, the destructor
loop selects index 0 (an EXISTING file, which it then opens for writing)
while the `logMetrics` existence rule selects the fresh index 1; and when
no file exists at all the destructor loop never terminates. -/
theorem destructor_logfile_index_bug :
    destructorLogfileIndex (fun n => n == 0) 5 0 = some 0 ∧
    freshLogfileIndex (fun n => n == 0) 5 0 = some 1 ∧
    ∀ fuel count, destructorLogfileIndex (fun _ => false) fuel count = none := by
  refine ⟨by decide, by decide, ?_⟩
  intro fuel
  induction fuel with
  | zero => intro count; rfl
  | succ n ih =>
    intro count
    unfold destructorLogfileIndex
    simpa using ih (count + 1)

/-- `std::unique`-style adjacent deduplication used by the destructor on
the attributed transfer logs (WorkloadCharacterisation.cpp:51-59): one
representative is kept per maximal run of adjacent equal names. -/
def dedupAdjacentGo (prev : String) : List String → List String
  | [] => []
  | b :: t => if b = prev then dedupAdjacentGo prev t else b :: dedupAdjacentGo b t

def dedupAdjacent : List String → List String
  | [] => []
  | a :: t => a :: dedupAdjacentGo a t

/-- The CSV rows the destructor writes for one transfer direction
(WorkloadCharacterisation.cpp:83-88): one row per entry of the uniqued
list, whose count is `std::count` over the WHOLE original log. -/
def transferRows (log : List String) : List (String × Nat) :=
  (dedupAdjacent log).map (fun k => (k, log.count k))

/-- Run-length rows (the behaviour claimed by the spec): one row per
maximal run of adjacent equal names, whose count is that run's length. -/
def runRowsGo (a : String) (n : Nat) : List String → List (String × Nat)
  | [] => [(a, n)]
  | b :: t => if b = a then runRowsGo a (n + 1) t else (a, n) :: runRowsGo b 1 t

def runRows : List String → List (String × Nat)
  | [] => []
  | a :: t => runRowsGo a 1 t

/-- C7 counterexample: for the attributed log `["A", "B", "A"]` the
destructor emits rows `[("A", 2), ("B", 1), ("A", 2)]` — each row of a
kernel with non-contiguous runs carries the kernel's TOTAL count — not the
run-length rows `[("A", 1), ("B", 1), ("A", 1)]` the claim describes. -/
theorem transfer_rows_counterexample :
    transferRows ["A", "B", "A"] ≠ runRows ["A", "B", "A"] ∧
    transferRows ["A", "B", "A"] = [("A", 2), ("B", 1), ("A", 2)] := by
  constructor
  · decide
  · rfl

lemma dedupAdjacentGo_eq_runRowsGo_heads (t : List String) :
    ∀ a n, (runRowsGo a n t).map Prod.fst = a :: dedupAdjacentGo a t := by
  induction t with
  | nil => intro a n; simp [runRowsGo, dedupAdjacentGo]
  | cons b t ih =>
    intro a n
    unfold runRowsGo dedupAdjacentGo
    by_cases hb : b = a
    · rw [if_pos hb, if_pos hb, ih]
    · rw [if_neg hb, if_neg hb]
      simp only [List.map_cons, ih]

lemma dedupAdjacent_eq_runRows_heads (l : List String) :
    (runRows l).map Prod.fst = dedupAdjacent l := by
  cases l with
  | nil => rfl
  | cons a t => exact dedupAdjacentGo_eq_runRowsGo_heads t a 1

/-- C7 (amended): each maximal run of adjacent equal kernel names produces
its own row, in log order, but every row's count is the kernel's total
occurrence count over the whole log — a kernel launched in `k`
non-contiguous runs yields `k` rows all carrying the same total. -/
theorem transfer_rows_amended (log : List String) :
    transferRows log = (runRows log).map (fun r => (r.1, log.count r.1)) := by
  unfold transferRows
  rw [← dedupAdjacent_eq_runRows_heads, List.map_map]
  rfl

/-- The per-invocation aggregate held by the plugin (the `m_*` members
reset in `kernelBegin`, WorkloadCharacterisation.cpp:279-299). -/
structure Aggregate where
  loadOps : Hist
  storeOps : Hist
  computeOps : List (Nat × Nat)
  branchPatterns : List (Nat × List (Nat × Nat))
  branchCounts : List (Nat × Nat)
  instructionsToBarrier : List Nat
  instructionWidth : List (Nat × Nat)
  instructionsPerWorkitem : List Nat
  instructionsBetweenLoadOrStore : List Nat
  loadInstructionLabels : List (String × Nat)
  storeInstructionLabels : List (String × Nat)
  threads_invoked : Nat
  barriers_hit : Nat
  global_memory_access : Nat
  local_memory_access : Nat
  constant_memory_access : Nat
  psl_per_group : List (List ℝ)

/-- `std::min_element` over `[begin, end)`: `none` for an empty range,
where the source would dereference the `end()` iterator
(WorkloadCharacterisation.cpp:378, 392). -/
def minElement : List Nat → Option Nat
  | [] => none
  | a :: t => some (t.foldl Nat.min a)

/-- `std::max_element` over `[begin, end)`: `none` for an empty range
(WorkloadCharacterisation.cpp:379, 393). -/
def maxElement : List Nat → Option Nat
  | [] => none
  | a :: t => some (t.foldl Nat.max a)

def insertSorted (x : Nat) : List Nat → List Nat
  | [] => [x]
  | y :: t => if x ≤ y then x :: y :: t else y :: insertSorted x t

/-- Ascending sort, modelling the `std::sort` calls of `logMetrics`
(WorkloadCharacterisation.cpp:383, 397). -/
def sortNat : List Nat → List Nat
  | [] => []
  | x :: t => insertSorted x (sortNat t)

/-- The median computation of `logMetrics`
(WorkloadCharacterisation.cpp:385-390, 399-404): on an even-length sorted
vector, the integer mean of the two central elements; out-of-range
accesses (which the source performs on an empty vector, where
`size / 2 - 1` underflows) are `none`. -/
def medianOf (l : List Nat) : Option Nat :=
  let s := sortNat l
  if s.length % 2 = 0 then
    match s[s.length / 2 - 1]?, s[s.length / 2]? with
    | some a, some b => some ((a + b) / 2)
    | _, _ => none
  else s[s.length / 2]?

/-- `std::min_element` over the instruction-width map compared by key,
projected to the key (WorkloadCharacterisation.cpp:408). -/
def simdMinKey : List (Nat × Nat) → Option Nat
  | [] => none
  | a :: t => some ((t.map Prod.fst).foldl Nat.min a.1)

/-- `std::max_element` over the instruction-width map compared by key,
projected to the key (WorkloadCharacterisation.cpp:409). -/
def simdMaxKey : List (Nat × Nat) → Option Nat
  | [] => none
  | a :: t => some ((t.map Prod.fst).foldl Nat.max a.1)

/-- The unguarded ITB/IPT/SIMD reductions of `logMetrics`
(WorkloadCharacterisation.cpp:378-423), in source order. The source
performs them without any emptiness guard; every `none` marks a spot where
the C++ dereferences an end iterator or indexes out of range — undefined
behaviour, not a structured error. -/
def reduceStats (a : Aggregate) :
    Option (Nat × Nat × Nat × Nat × Nat × Nat × Nat × Nat) := do
  let itbMin ← minElement a.instructionsToBarrier
  let itbMax ← maxElement a.instructionsToBarrier
  let itbMed ← medianOf a.instructionsToBarrier
  let iptMin ← minElement a.instructionsPerWorkitem
  let iptMax ← maxElement a.instructionsPerWorkitem
  let iptMed ← medianOf a.instructionsPerWorkitem
  let sMin ← simdMinKey a.instructionWidth
  let sMax ← simdMaxKey a.instructionWidth
  return (itbMin, itbMax, itbMed, iptMin, iptMax, iptMed, sMin, sMax)

/-- The aggregate of an invocation in which zero work-items executed:
every sequence is empty and every counter 0, exactly as `kernelBegin`
leaves it. -/
def zeroAggregate : Aggregate :=
  { loadOps := [], storeOps := [], computeOps := [], branchPatterns := [],
    branchCounts := [], instructionsToBarrier := [], instructionWidth := [],
    instructionsPerWorkitem := [], instructionsBetweenLoadOrStore := [],
    loadInstructionLabels := [], storeInstructionLabels := [],
    threads_invoked := 0, barriers_hit := 0, global_memory_access := 0,
    local_memory_access := 0, constant_memory_access := 0, psl_per_group := [] }

/-- C8 counterexample: emitting metrics for a zero-work-item invocation
reaches the unguarded `min_element` reduction over the empty
`instructions_between_barriers` sequence — the embedding yields the
undefined-behaviour marker `none`, not a structured error. -/
theorem reduce_empty_counterexample : reduceStats zeroAggregate = none := rfl

/-- C8 (amended): the reducer performs the min/max reductions unguarded;
for any aggregate whose `instructions_between_barriers` sequence is empty
(as after zero work-items executed) it dereferences an empty range —
undefined behaviour, embedded as `none` — instead of surfacing a
structured error. -/
theorem reduce_empty_amended (a : Aggregate) (h : a.instructionsToBarrier = []) :
    reduceStats a = none := by
  unfold reduceStats
  rw [h]
  rfl

/-- Witness for the amended C8 at the concrete zero-work-item aggregate. -/
theorem reduce_empty_amended_witness :
    zeroAggregate.instructionsToBarrier = [] ∧ reduceStats zeroAggregate = none :=
  ⟨rfl, reduce_empty_amended zeroAggregate rfl⟩

/-- The reset performed by `kernelEnd` after emitting the report
(WorkloadCharacterisation.cpp:674-691): it clears the op/branch maps, the
ITB/IPT/IBLS sequences, the label maps and `m_threads_invoked` — and
nothing else. -/
def kernelEndReset (a : Aggregate) : Aggregate :=
  { a with loadOps := [], storeOps := [], computeOps := [], branchPatterns := [],
           branchCounts := [], instructionsToBarrier := [],
           instructionsPerWorkitem := [], threads_invoked := 0,
           instructionsBetweenLoadOrStore := [], loadInstructionLabels := [],
           storeInstructionLabels := [] }

/-- A concrete aggregate with non-zero instruction-width counts, barrier
counter and memory-space counters. -/
def sampleAggregate : Aggregate :=
  { loadOps := [(4096, 1)], storeOps := [], computeOps := [(13, 7)],
    branchPatterns := [], branchCounts := [], instructionsToBarrier := [7],
    instructionWidth := [(1, 5)], instructionsPerWorkitem := [7],
    instructionsBetweenLoadOrStore := [3], loadInstructionLabels := [],
    storeInstructionLabels := [], threads_invoked := 1, barriers_hit := 3,
    global_memory_access := 2, local_memory_access := 1,
    constant_memory_access := 4, psl_per_group := [] }

/-- C9 counterexample: after the `kernelEnd` reset of a concrete aggregate,
the instruction-width counts and the barriers-hit counter (among others)
are NOT zeroed or emptied. -/
theorem kernel_end_reset_counterexample :
    (kernelEndReset sampleAggregate).instructionWidth ≠ [] ∧
    (kernelEndReset sampleAggregate).barriers_hit ≠ 0 ∧
    (kernelEndReset sampleAggregate).global_memory_access ≠ 0 := by
  refine ⟨?_, ?_, ?_⟩ <;> decide

/-- C9 (amended): `kernelEnd` empties the load/store/compute maps, the
branch maps, the ITB/IPT/IBLS sequences, the label maps, and zeroes
`threads_invoked`; but it leaves the per-key instruction-width counts, the
barriers-hit counter, the three memory-access-space counters and the
per-group PSL list unchanged (those are reset only at the next kernel
begin). -/
theorem kernel_end_reset_amended (a : Aggregate) :
    (kernelEndReset a).loadOps = [] ∧
    (kernelEndReset a).storeOps = [] ∧
    (kernelEndReset a).computeOps = [] ∧
    (kernelEndReset a).branchPatterns = [] ∧
    (kernelEndReset a).branchCounts = [] ∧
    (kernelEndReset a).instructionsToBarrier = [] ∧
    (kernelEndReset a).instructionsPerWorkitem = [] ∧
    (kernelEndReset a).threads_invoked = 0 ∧
    (kernelEndReset a).instructionsBetweenLoadOrStore = [] ∧
    (kernelEndReset a).loadInstructionLabels = [] ∧
    (kernelEndReset a).storeInstructionLabels = [] ∧
    (kernelEndReset a).instructionWidth = a.instructionWidth ∧
    (kernelEndReset a).barriers_hit = a.barriers_hit ∧
    (kernelEndReset a).global_memory_access = a.global_memory_access ∧
    (kernelEndReset a).local_memory_access = a.local_memory_access ∧
    (kernelEndReset a).constant_memory_access = a.constant_memory_access ∧
    (kernelEndReset a).psl_per_group = a.psl_per_group :=
  ⟨rfl, rfl, rfl, rfl, rfl, rfl, rfl, rfl, rfl, rfl, rfl, rfl, rfl, rfl, rfl, rfl, rfl⟩

/-- The host-transfer events observed by the plugin outside kernel
execution: `hostMemoryStore`, `hostMemoryLoad`, and the kernel naming at
`kernelBegin`. -/
inductive TransferEvent where
  | hostStore
  | hostLoad
  | kernelBegin (name : String)

/-- The transfer-tracking state: `m_hostToDeviceCopy`, `m_deviceToHostCopy`,
`m_numberOfHostToDeviceCopiesBeforeKernelNamed` and `m_last_kernel_name`
(WorkloadCharacterisation.cpp:42-45, 93-102, 267-277). -/
structure TransferState where
  hostToDevice : List String
  deviceToHost : List String
  unnamed : Nat
  lastKernelName : String

/-- The constructor state (WorkloadCharacterisation.cpp:42-45). -/
def initTransferState : TransferState :=
  { hostToDevice := [], deviceToHost := [], unnamed := 0, lastKernelName := "" }

/-- The rewrite loop of `kernelBegin` (WorkloadCharacterisation.cpp:273-276):
`for (i = 0; i < unnamed; i++) log[end_of_list - i] = name` with
`end_of_list = log.size() - 1`; `list.set` keeps the length constant, and
an index falling outside the vector (the source's unchecked `operator[]`)
is undefined behaviour, embedded as `none`. -/
def rewriteTailGo (name : String) : Nat → Nat → List String → Option (List String)
  | 0, _, log => some log
  | rem + 1, i, log =>
    if 1 + i ≤ log.length then
      rewriteTailGo name rem (i + 1) (log.set (log.length - 1 - i) name)
    else none

def rewriteTail (log : List String) (k : Nat) (name : String) : Option (List String) :=
  rewriteTailGo name k 0 log

/-- One observed event (WorkloadCharacterisation.cpp:93-102 and 267-277):
`hostMemoryStore` appends the last kernel name to the host→device log and
increments the unnamed counter; `hostMemoryLoad` appends to the
device→host log; `kernelBegin` renames the last `unnamed` host→device
entries to the new kernel's name and zeroes the counter. -/
def stepTransfer (s : TransferState) : TransferEvent → Option TransferState
  | .hostStore =>
      some { s with hostToDevice := s.hostToDevice ++ [s.lastKernelName],
                    unnamed := s.unnamed + 1 }
  | .hostLoad =>
      some { s with deviceToHost := s.deviceToHost ++ [s.lastKernelName] }
  | .kernelBegin name =>
      match rewriteTail s.hostToDevice s.unnamed name with
      | some log =>
          some { s with hostToDevice := log, unnamed := 0, lastKernelName := name }
      | none => none

def runTransferFrom (s : TransferState) : List TransferEvent → Option TransferState
  | [] => some s
  | e :: t =>
    match stepTransfer s e with
    | some s2 => runTransferFrom s2 t
    | none => none

def runTransfer (evs : List TransferEvent) : Option TransferState :=
  runTransferFrom initTransferState evs

/-- Number of host→device entries appended since the last kernel naming,
starting from a pending count `n`. -/
def unnamedAfter : Nat → List TransferEvent → Nat
  | n, [] => n
  | n, .hostStore :: t => unnamedAfter (n + 1) t
  | n, .hostLoad :: t => unnamedAfter n t
  | _, .kernelBegin _ :: t => unnamedAfter 0 t

lemma rewriteTailGo_some (name : String) :
    ∀ rem i (log : List String), rem + i ≤ log.length →
      ∃ log2, rewriteTailGo name rem i log = some log2 ∧ log2.length = log.length := by
  intro rem
  induction rem with
  | zero => intro i log _; exact ⟨log, rfl, rfl⟩
  | succ n ih =>
    intro i log hlen
    unfold rewriteTailGo
    rw [if_pos (by omega)]
    obtain ⟨log2, h1, h2⟩ := ih (i + 1) (log.set (log.length - 1 - i) name)
      (by rw [List.length_set]; omega)
    exact ⟨log2, h1, by rw [h2, List.length_set]⟩

lemma runTransferFrom_spec :
    ∀ (evs : List TransferEvent) (s : TransferState),
      s.unnamed ≤ s.hostToDevice.length →
      ∃ s2, runTransferFrom s evs = some s2 ∧
        s2.unnamed = unnamedAfter s.unnamed evs ∧
        s2.unnamed ≤ s2.hostToDevice.length := by
  intro evs
  induction evs with
  | nil => intro s hs; exact ⟨s, rfl, rfl, hs⟩
  | cons e t ih =>
    intro s hs
    cases e with
    | hostStore =>
      have hstep : stepTransfer s .hostStore =
          some { s with hostToDevice := s.hostToDevice ++ [s.lastKernelName],
                        unnamed := s.unnamed + 1 } := rfl
      obtain ⟨s2, h1, h2, h3⟩ :=
        ih { s with hostToDevice := s.hostToDevice ++ [s.lastKernelName],
                    unnamed := s.unnamed + 1 }
          (by simp only [List.length_append, List.length_cons, List.length_nil]; omega)
      exact ⟨s2, by simpa [runTransferFrom, hstep] using h1, h2, h3⟩
    | hostLoad =>
      have hstep : stepTransfer s .hostLoad =
          some { s with deviceToHost := s.deviceToHost ++ [s.lastKernelName] } := rfl
      obtain ⟨s2, h1, h2, h3⟩ :=
        ih { s with deviceToHost := s.deviceToHost ++ [s.lastKernelName] } hs
      exact ⟨s2, by simpa [runTransferFrom, hstep] using h1, h2, h3⟩
    | kernelBegin name =>
      obtain ⟨log2, hlog, hlen⟩ :=
        rewriteTailGo_some name s.unnamed 0 s.hostToDevice (by omega)
      have hstep : stepTransfer s (.kernelBegin name) =
          some { s with hostToDevice := log2, unnamed := 0, lastKernelName := name } := by
        simp only [stepTransfer, rewriteTail, hlog]
      obtain ⟨s2, h1, h2, h3⟩ :=
        ih { s with hostToDevice := log2, unnamed := 0, lastKernelName := name }
          (by simp)
      exact ⟨s2, by simpa [runTransferFrom, hstep] using h1, h2, h3⟩

/-- C10: running any sequence of host-transfer events from the initial
state never fails — the counter of unattributed host→device copies always
equals the number of host→device entries appended since the last kernel
naming, so it never exceeds the log's length and the rewrite loop of
`kernelBegin` only overwrites existing trailing entries (no `rewriteTail`
index ever falls outside the log). -/
theorem transfer_counter_invariant (evs : List TransferEvent) :
    ∃ s, runTransfer evs = some s ∧
      s.unnamed = unnamedAfter 0 evs ∧
      s.unnamed ≤ s.hostToDevice.length :=
  runTransferFrom_spec evs initTransferState (Nat.le_refl 0)

end AIWC
